import Mathlib

/-!
Shallow embedding of the candidate-filtering core of `wordle.py` (class
`Wordle`), together with theorems checking the specification's claims
about it.

Words, guesses and verdict strings are modelled as `List Char`.  The
candidate set (`Wordle._words`, a Python `set`) is a `Finset (List Char)`.
-/

namespace Wordle

/-- An entry of the `pos_info` dict built by `Wordle.filter`.  The Python
code stores the string `f"{c}"` for a green ('g') verdict (modelled as
`lock c`) and the string `f"-{c}"` for a yellow ('y') verdict (modelled
as `ban c`). -/
inductive PosEntry where
  | lock : Char → PosEntry
  | ban : Char → PosEntry
deriving DecidableEq, Repr

/-- Python's substring test `c in key` applied to a `pos_info` value:
for a lock entry the stored string is `"c"`, so membership means equality
with the locked letter; for a ban entry the stored string is `"-c"`, so
membership means the character is `'-'` or the banned letter. -/
def entryContains : PosEntry → Char → Bool
  | .lock l, c => c = l
  | .ban b, c => c = '-' || c = b

/-- The state built by the encoding pass of `Wordle.filter` (lines
120-134): `missing` is the Python set `missing`, `members` the
`collections.Counter` (a multiset: `count` gives the tally), and
`posInfo` the insertion-ordered dict `pos_info` as an association list
(keys are the distinct indices produced by `enumerate`, so `setdefault`
always inserts). -/
structure EncState where
  missing : Finset Char
  members : Multiset Char
  posInfo : List (Nat × PosEntry)
deriving DecidableEq

/-- `any([c in key for key in pos_info.values()])`: whether the character
has already been recorded (as a lock or ban letter, or the literal '-')
in an earlier iteration. -/
def seenElsewhere (posInfo : List (Nat × PosEntry)) (c : Char) : Bool :=
  posInfo.any fun p => entryContains p.2 c

/-- One iteration of the encoding loop of `Wordle.filter` (the body run
for `idx, (c, t)` in `enumerate(zip(word, validation_string))`).  A '.'
verdict adds the letter to `missing` unless it is already present in
`pos_info`; a 'y' verdict increments the counter and records a ban; any
other verdict character falls into the `else` branch, incrementing the
counter and recording a lock (the code itself never validates that the
character is 'g'; the prompt loop does that before calling `filter`). -/
def encodeStep (idx : Nat) (c t : Char) (st : EncState) : EncState :=
  if t = '.' then
    if seenElsewhere st.posInfo c then st
    else { st with missing := insert c st.missing }
  else if t = 'y' then
    { st with members := c ::ₘ st.members
            , posInfo := st.posInfo ++ [(idx, PosEntry.ban c)] }
  else
    { st with members := c ::ₘ st.members
            , posInfo := st.posInfo ++ [(idx, PosEntry.lock c)] }

/-- The encoding loop folds `encodeStep` over the zipped pairs with a
running index. -/
def encodeAux : Nat → List (Char × Char) → EncState → EncState
  | _, [], st => st
  | idx, (c, t) :: rest, st => encodeAux (idx + 1) rest (encodeStep idx c t st)

/-- The full encoding pass of `Wordle.filter` on a (guess, verdict) pair.
As in the Python `zip`, a length mismatch truncates to the shorter
argument. -/
def encode (word validation : List Char) : EncState :=
  encodeAux 0 (word.zip validation) ⟨∅, 0, []⟩

/-- `len(set(option) & missing) > 0`: the candidate contains some letter
of the `missing` set. -/
def hasMissing (option : List Char) (missing : Finset Char) : Bool :=
  option.any fun c => c ∈ missing

/-- The per-candidate position loop of `Wordle.filter` (lines 141-152),
with the fallible index `option[idx]` made explicit: `none` models the
`IndexError` Python would raise if `idx` were out of bounds, `some true`
means the loop `break`s having found a violation, `some false` means the
loop completes (the `for`/`else` case). -/
def checkPositionsE (option : List Char) : List (Nat × PosEntry) → Option Bool
  | [] => some false
  | (idx, info) :: rest =>
    match option[idx]? with
    | none => none
    | some c =>
      match info with
      | .ban b => if c = b then some true else checkPositionsE option rest
      | .lock l => if c = l then checkPositionsE option rest else some true

/-- The count check of `Wordle.filter` (lines 154-159): some counted
letter occurs in the candidate fewer times than its tally. -/
def belowMinCounts (option : List Char) (members : Multiset Char) : Bool :=
  decide (∃ c ∈ members.toFinset, option.count c < members.count c)

/-- Whether `Wordle.filter` adds `option` to `illegal_words`: `some true`
if rejected, `some false` if kept, `none` if the position loop would
raise an `IndexError`. -/
def rejectE (st : EncState) (option : List Char) : Option Bool :=
  if hasMissing option st.missing then some true
  else
    match checkPositionsE option st.posInfo with
    | none => none
    | some true => some true
    | some false => some (belowMinCounts option st.members)

/-- The set `illegal_words` accumulated by `Wordle.filter`. -/
def illegalWords (st : EncState) (words : Finset (List Char)) : Finset (List Char) :=
  words.filter fun w => rejectE st w = some true

/-- The full `Wordle.filter(word, validation_string)` call:
`self._words -= illegal_words`. -/
def filterWords (words : Finset (List Char)) (word validation : List Char) :
    Finset (List Char) :=
  words \ illegalWords (encode word validation) words

/-- The whitespace characters stripped by Python's `str.strip()`. -/
def isPyWhitespace (c : Char) : Bool :=
  c = ' ' || c = '\t' || c = '\n' || c = '\r' || c = '\x0b' || c = '\x0c'

/-- Python's `line.strip()`: drop whitespace from both ends. -/
def pyStrip (s : List Char) : List Char :=
  ((s.dropWhile isPyWhitespace).reverse.dropWhile isPyWhitespace).reverse

/-- Membership in `string.ascii_lowercase`. -/
def isLower (c : Char) : Bool :=
  'a' ≤ c && c ≤ 'z'

/-- The keep-condition of `Wordle.reset` (lines 56-60): the stripped line
has exactly the session word length and
`len(set(word) - set(string.ascii_lowercase)) == 0`. -/
def validWord (wordLen : Nat) (w : List Char) : Bool :=
  w.length = wordLen && w.all isLower

/-- `Wordle.reset`: strip every line of the word-list file and collect
into the set `self._words` those that pass `validWord`; all other lines
are skipped (`continue`) without error. -/
def reset (lines : List (List Char)) (wordLen : Nat) : Finset (List Char) :=
  ((lines.map pyStrip).filter (validWord wordLen)).toFinset

/-- Modelled from the spec: honest feedback generation by the game
itself, which is not part of this repository (the glossary defines
Correct = letter at exactly this position, Present = in the word but not
here, Absent = not in the word beyond already-credited occurrences).
Greens are credited first; then the remaining (non-green) target letters
are consumed left to right to produce yellows. -/
def honestAux : List (Char × Char) → Multiset Char → List Char
  | [], _ => []
  | (g, t) :: rest, rem =>
    if g = t then 'g' :: honestAux rest rem
    else if g ∈ rem then 'y' :: honestAux rest (rem.erase g)
    else '.' :: honestAux rest rem

/-- Modelled from the spec: the honest verdict string for `guess` against
the hidden `target`. -/
def honestVerdict (target guess : List Char) : List Char :=
  let pairs := guess.zip target
  honestAux pairs ((pairs.filter fun p => p.1 != p.2).map Prod.snd : List Char)

/-- Whether a single `pos_info` entry rejects the candidate: a ban entry
rejects when the candidate has the banned letter at that index, a lock
entry rejects when the candidate does not have the locked letter there. -/
def posBad (option : List Char) : Nat × PosEntry → Bool
  | (idx, .ban b) => decide (option[idx]? = some b)
  | (idx, .lock l) => decide (¬ option[idx]? = some l)

lemma checkPositionsE_eq_any (w : List Char) (ps : List (Nat × PosEntry))
    (h : ∀ p ∈ ps, p.1 < w.length) :
    checkPositionsE w ps = some (ps.any (posBad w)) := by
  induction ps with
  | nil => simp [checkPositionsE]
  | cons p rest ih =>
    obtain ⟨idx, info⟩ := p
    have hidx : idx < w.length := h (idx, info) (List.mem_cons_self _ _)
    have hc : w[idx]? = some w[idx] := List.getElem?_eq_getElem hidx
    have ih' := ih fun q hq => h q (List.mem_cons_of_mem _ hq)
    cases info with
    | ban b =>
      by_cases hcb : w[idx] = b
      · simp [checkPositionsE, hc, hcb, posBad]
      · simp [checkPositionsE, hc, hcb, posBad, ih']
    | lock l =>
      by_cases hcl : w[idx] = l
      · simp [checkPositionsE, hc, hcl, posBad, ih']
      · simp [checkPositionsE, hc, hcl, posBad]

lemma encodeStep_posInfo_cases (idx : Nat) (c t : Char) (st : EncState) :
    (encodeStep idx c t st).posInfo = st.posInfo ∨
      ∃ e, (encodeStep idx c t st).posInfo = st.posInfo ++ [(idx, e)] := by
  unfold encodeStep
  split_ifs
  · exact Or.inl rfl
  · exact Or.inl rfl
  · exact Or.inr ⟨PosEntry.ban c, rfl⟩
  · exact Or.inr ⟨PosEntry.lock c, rfl⟩

lemma encodeAux_posInfo_mem (pairs : List (Char × Char)) :
    ∀ (idx : Nat) (st : EncState) (p : Nat × PosEntry),
      p ∈ (encodeAux idx pairs st).posInfo →
        p ∈ st.posInfo ∨ (idx ≤ p.1 ∧ p.1 < idx + pairs.length) := by
  induction pairs with
  | nil =>
    intro idx st p hp
    rw [encodeAux] at hp
    exact Or.inl hp
  | cons ct rest ih =>
    intro idx st p hp
    obtain ⟨c, t⟩ := ct
    rw [encodeAux] at hp
    rcases ih (idx + 1) (encodeStep idx c t st) p hp with h | ⟨h1, h2⟩
    · rcases encodeStep_posInfo_cases idx c t st with he | ⟨e, he⟩
      · rw [he] at h
        exact Or.inl h
      · rw [he, List.mem_append, List.mem_singleton] at h
        rcases h with h | rfl
        · exact Or.inl h
        · exact Or.inr ⟨le_refl idx, by simp⟩
    · exact Or.inr ⟨by omega, by simp at h2 ⊢; omega⟩

lemma encode_posInfo_lt (g v : List Char) (p : Nat × PosEntry)
    (hp : p ∈ (encode g v).posInfo) : p.1 < min g.length v.length := by
  rcases encodeAux_posInfo_mem (g.zip v) 0 ⟨∅, 0, []⟩ p hp with h | ⟨_, h2⟩
  · simp at h
  · simpa [List.length_zip] using h2

lemma rejectE_eq (st : EncState) (w : List Char)
    (h : ∀ p ∈ st.posInfo, p.1 < w.length) :
    rejectE st w =
      some (hasMissing w st.missing || st.posInfo.any (posBad w) ||
        belowMinCounts w st.members) := by
  unfold rejectE
  rw [checkPositionsE_eq_any w st.posInfo h]
  by_cases hm : hasMissing w st.missing
  · simp [hm]
  · cases hany : st.posInfo.any (posBad w) <;> simp [hm, hany]

lemma mem_filterWords (words : Finset (List Char)) (g v w : List Char) :
    w ∈ filterWords words g v ↔
      w ∈ words ∧ ¬ rejectE (encode g v) w = some true := by
  simp only [filterWords, illegalWords, Finset.mem_sdiff, Finset.mem_filter]
  tauto

lemma zip_take_min (g v : List Char) :
    g.zip v = (g.take (min g.length v.length)).zip (v.take (min g.length v.length)) := by
  induction g generalizing v with
  | nil => simp
  | cons c cs ih =>
    cases v with
    | nil => simp
    | cons d ds => simp [Nat.succ_min_succ, ih ds]

/-- Claim C1, failing input: with the hidden target "aspen" present in
the candidate set, the honestly generated verdict for the guess "sslip"
is ".g..y" ('s' is Absent at index 0 because the single 's' of the target
is credited to the Correct 's' at index 1), yet `filter` removes the
target from the candidate set: the Absent 's' at index 0 is processed
before any `pos_info` entry for 's' exists, so 's' is added to `missing`
and the target is rejected for containing it. -/
theorem honest_feedback_removes_target :
    honestVerdict ['a','s','p','e','n'] ['s','s','l','i','p'] = ['.','g','.','.','y'] ∧
    ['a','s','p','e','n'] ∉
      filterWords {['a','s','p','e','n']} ['s','s','l','i','p'] ['.','g','.','.','y'] := by
  decide

/-- Claim C2, failing input: for the guess "sassy" and the verdict
".y.g." the letter 's' has a Correct verdict at index 3, so its tally
(`members`) is positive, yet 's' is also placed in the excluded-letter
set `missing`: the Absent occurrence at index 0 is processed before the
lock for 's' exists, so the "seen elsewhere" check does not fire. -/
theorem excluded_letter_with_positive_tally :
    's' ∈ (encode ['s','a','s','s','y'] ['.','y','.','g','.']).missing ∧
    0 < (encode ['s','a','s','s','y'] ['.','y','.','g','.']).members.count 's' := by
  decide

/-- Claim C5, counterexample: `filter` contains no length check at all;
on a guess of length 2 and a verdict of length 1 it does not fail but
silently truncates to the shorter of the two (`zip`), producing the same
constraints as the truncated pair and filtering the candidate set
normally. -/
theorem filter_truncates_mismatched_lengths :
    encode ['a','b'] ['g'] = encode ['a'] ['g'] ∧
    filterWords {['a','x'], ['b','x']} ['a','b'] ['g'] = {['a','x']} := by
  decide

/-- Claim C5, amended: `filter` performs no length validation and raises
no error on a guess/verdict pair of mismatched lengths; it silently
processes the pair truncated to the shorter of the two, exactly as if
both inputs had been cut to length `min |guess| |verdict|`.  (Length
validation happens in the prompt loop before `filter` is ever called.) -/
theorem filter_processes_truncated_pair (words : Finset (List Char)) (g v : List Char) :
    encode g v =
      encode (g.take (min g.length v.length)) (v.take (min g.length v.length)) ∧
    filterWords words g v =
      filterWords words (g.take (min g.length v.length)) (v.take (min g.length v.length)) := by
  have h : encode g v =
      encode (g.take (min g.length v.length)) (v.take (min g.length v.length)) := by
    unfold encode
    rw [← zip_take_min]
  exact ⟨h, by unfold filterWords; rw [h]⟩

lemma hasMissing_iff (w : List Char) (m : Finset Char) :
    hasMissing w m = true ↔ ∃ c ∈ w, c ∈ m := by
  simp [hasMissing]

lemma any_posBad_iff (w : List Char) (ps : List (Nat × PosEntry)) :
    ps.any (posBad w) = true ↔
      (∃ i b, (i, PosEntry.ban b) ∈ ps ∧ w[i]? = some b) ∨
      (∃ i l, (i, PosEntry.lock l) ∈ ps ∧ ¬ w[i]? = some l) := by
  simp only [List.any_eq_true]
  constructor
  · rintro ⟨⟨i, e⟩, hmem, hbad⟩
    cases e with
    | ban b => exact Or.inl ⟨i, b, hmem, by simpa [posBad] using hbad⟩
    | lock l => exact Or.inr ⟨i, l, hmem, by simpa [posBad] using hbad⟩
  · rintro (⟨i, b, hmem, hb⟩ | ⟨i, l, hmem, hl⟩)
    · exact ⟨(i, PosEntry.ban b), hmem, by simpa [posBad] using hb⟩
    · exact ⟨(i, PosEntry.lock l), hmem, by simpa [posBad] using hl⟩

lemma belowMinCounts_iff (w : List Char) (m : Multiset Char) :
    belowMinCounts w m = true ↔ ∃ c, 0 < m.count c ∧ w.count c < m.count c := by
  simp only [belowMinCounts, decide_eq_true_eq]
  constructor
  · rintro ⟨c, hc, hlt⟩
    exact ⟨c, by rwa [Multiset.mem_toFinset, ← Multiset.count_pos] at hc, hlt⟩
  · rintro ⟨c, hc, hlt⟩
    exact ⟨c, by rwa [Multiset.mem_toFinset, ← Multiset.count_pos], hlt⟩

/-- Claim C3: on candidates of the session word length, `filter` keeps a
word from the candidate set exactly when none of the four rejection
conditions holds: (a) it contains an excluded (`missing`) letter, (b) it
has a banned letter at a banned position, (c) it differs from a locked
letter at a locked position, (d) some counted letter occurs fewer times
than its `members` tally. -/
theorem filter_keeps_iff_consistent (words : Finset (List Char)) (g v w : List Char)
    (L : Nat) (hw : ∀ u ∈ words, u.length = L) (hg : g.length = L) (hv : v.length = L)
    (hmem : w ∈ words) :
    w ∈ filterWords words g v ↔
      ¬ ((∃ c ∈ w, c ∈ (encode g v).missing) ∨
         (∃ i b, (i, PosEntry.ban b) ∈ (encode g v).posInfo ∧ w[i]? = some b) ∨
         (∃ i l, (i, PosEntry.lock l) ∈ (encode g v).posInfo ∧ ¬ w[i]? = some l) ∨
         (∃ c, 0 < (encode g v).members.count c ∧
            w.count c < (encode g v).members.count c)) := by
  have hkeys : ∀ p ∈ (encode g v).posInfo, p.1 < w.length := by
    intro p hp
    have h1 := encode_posInfo_lt g v p hp
    have h2 := hw w hmem
    omega
  rw [mem_filterWords]
  rw [rejectE_eq _ _ hkeys]
  simp only [hmem, true_and, Option.some.injEq, Bool.or_eq_true, hasMissing_iff,
    any_posBad_iff, belowMinCounts_iff, or_assoc]

/-- Claim C3 witness at a concrete input. -/
theorem filter_keeps_iff_consistent_witness :
    ['a','b'] ∈ filterWords {['a','b']} ['a','b'] ['g','.'] ↔
      ¬ ((∃ c ∈ ['a','b'], c ∈ (encode ['a','b'] ['g','.']).missing) ∨
         (∃ i b, (i, PosEntry.ban b) ∈ (encode ['a','b'] ['g','.']).posInfo ∧
            ['a','b'][i]? = some b) ∨
         (∃ i l, (i, PosEntry.lock l) ∈ (encode ['a','b'] ['g','.']).posInfo ∧
            ¬ ['a','b'][i]? = some l) ∨
         (∃ c, 0 < (encode ['a','b'] ['g','.']).members.count c ∧
            (['a','b'] : List Char).count c < (encode ['a','b'] ['g','.']).members.count c)) :=
  filter_keeps_iff_consistent {['a','b']} ['a','b'] ['g','.'] ['a','b'] 2
    (by decide) (by decide) (by decide) (by decide)

/-- Claim C4: for the guess "sassy" and any verdict marking 's' Correct
at index 0 and Absent at index 2, the encoder never puts 's' into the
excluded-letter set; instead index 0 is locked to 's' and the tally
requires at least one occurrence of 's'. -/
theorem sassy_duplicate_letter (t1 t3 t4 : Char)
    (h1 : t1 = 'g' ∨ t1 = 'y' ∨ t1 = '.') (h3 : t3 = 'g' ∨ t3 = 'y' ∨ t3 = '.')
    (h4 : t4 = 'g' ∨ t4 = 'y' ∨ t4 = '.') :
    's' ∉ (encode ['s','a','s','s','y'] ['g', t1, '.', t3, t4]).missing ∧
    (0, PosEntry.lock 's') ∈ (encode ['s','a','s','s','y'] ['g', t1, '.', t3, t4]).posInfo ∧
    1 ≤ (encode ['s','a','s','s','y'] ['g', t1, '.', t3, t4]).members.count 's' := by
  rcases h1 with rfl | rfl | rfl <;> rcases h3 with rfl | rfl | rfl <;>
    rcases h4 with rfl | rfl | rfl <;> decide

/-- Claim C4 witness at a concrete verdict. -/
theorem sassy_duplicate_letter_witness :
    's' ∉ (encode ['s','a','s','s','y'] ['g','y','.','.','.']).missing ∧
    (0, PosEntry.lock 's') ∈ (encode ['s','a','s','s','y'] ['g','y','.','.','.']).posInfo ∧
    1 ≤ (encode ['s','a','s','s','y'] ['g','y','.','.','.']).members.count 's' :=
  sassy_duplicate_letter 'y' '.' '.' (Or.inr (Or.inl rfl)) (Or.inr (Or.inr rfl))
    (Or.inr (Or.inr rfl))

/-- Claim C8: a stripped line of the word-list file ends up in the reset
candidate set exactly when it has the session word length and consists
only of lowercase letters; every other line is skipped (the function is
total: no error is possible). -/
theorem reset_mem_iff (lines : List (List Char)) (L : Nat) (w : List Char) :
    w ∈ reset lines L ↔
      (∃ line ∈ lines, pyStrip line = w) ∧ w.length = L ∧ ∀ c ∈ w, isLower c = true := by
  simp only [reset, List.mem_toFinset, List.mem_filter, List.mem_map, validWord,
    Bool.and_eq_true, decide_eq_true_eq, List.all_eq_true, and_assoc]

/-- Claim C9: when every candidate has the session word length and the
guess/verdict pair has that length too, the rejection check of `filter`
never hits the `IndexError` case (`none`): every candidate is given a
definite keep/reject answer, so an empty result set is just the outcome
in which every candidate was rejected, not an error. -/
theorem filter_never_errors (words : Finset (List Char)) (g v : List Char) (L : Nat)
    (hw : ∀ u ∈ words, u.length = L) (hg : g.length = L) (hv : v.length = L)
    (_hgc : ∀ c ∈ g, isLower c = true) (_hvc : ∀ c ∈ v, c = 'g' ∨ c = 'y' ∨ c = '.')
    (w : List Char) (hwmem : w ∈ words) :
    (rejectE (encode g v) w).isSome = true := by
  have hkeys : ∀ p ∈ (encode g v).posInfo, p.1 < w.length := by
    intro p hp
    have h1 := encode_posInfo_lt g v p hp
    have h2 := hw w hwmem
    omega
  rw [rejectE_eq _ _ hkeys]
  rfl

/-- Claim C9 witness at a concrete input. -/
theorem filter_never_errors_witness :
    (rejectE (encode ['d','o','g'] ['g','y','.']) ['c','a','t']).isSome = true :=
  filter_never_errors {['c','a','t']} ['d','o','g'] ['g','y','.'] 3
    (by decide) (by decide) (by decide) (by decide) (by decide) ['c','a','t'] (by decide)

/-- Claim C6: the filtered candidate set is a subset of the input set,
so its cardinality never exceeds the input's: the candidate set shrinks
monotonically. -/
theorem filterWords_subset_card_le (words : Finset (List Char)) (g v : List Char) :
    filterWords words g v ⊆ words ∧ (filterWords words g v).card ≤ words.card :=
  ⟨Finset.sdiff_subset, Finset.card_le_card Finset.sdiff_subset⟩

/-- Claim C7: applying `filter` twice with the same (guess, verdict)
pair yields the same candidate set as applying it once; the second pass
removes nothing from the already-filtered set. -/
theorem filterWords_idempotent (words : Finset (List Char)) (g v : List Char) :
    filterWords (filterWords words g v) g v = filterWords words g v := by
  ext w
  simp only [mem_filterWords]
  tauto

/-- The `pos_info` entries recorded for an all-Correct verdict: every
index from `idx` on is locked to the corresponding guess letter. -/
def lockList : Nat → List Char → List (Nat × PosEntry)
  | _, [] => []
  | idx, c :: cs => (idx, PosEntry.lock c) :: lockList (idx + 1) cs

lemma lockList_mem (g : List Char) :
    ∀ (idx : Nat) (p : Nat × PosEntry),
      p ∈ lockList idx g → idx ≤ p.1 ∧ p.1 < idx + g.length := by
  induction g with
  | nil =>
    intro idx p hp
    simp [lockList] at hp
  | cons c cs ih =>
    intro idx p hp
    rw [lockList, List.mem_cons] at hp
    rcases hp with rfl | hp
    · simp
    · have := ih (idx + 1) p hp
      constructor <;> [omega; (simp only [List.length_cons]; omega)]

lemma encodeStep_g (idx : Nat) (c : Char) (st : EncState) :
    encodeStep idx c 'g' st =
      { st with members := c ::ₘ st.members
              , posInfo := st.posInfo ++ [(idx, PosEntry.lock c)] } := by
  unfold encodeStep
  rw [if_neg (by decide), if_neg (by decide)]

lemma encodeAux_allg (cs : List Char) :
    ∀ (idx : Nat) (st : EncState),
      encodeAux idx (cs.map fun c => (c, 'g')) st =
        ⟨st.missing, st.members + (cs : Multiset Char), st.posInfo ++ lockList idx cs⟩ := by
  induction cs with
  | nil =>
    intro idx st
    cases st
    simp [encodeAux, lockList]
  | cons c cs ih =>
    intro idx st
    simp only [List.map_cons]
    rw [encodeAux, encodeStep_g, ih]
    cases st
    simp [lockList, ← Multiset.cons_coe, Multiset.cons_add]

lemma zip_replicate_g (g : List Char) :
    g.zip (List.replicate g.length 'g') = g.map fun c => (c, 'g') := by
  induction g with
  | nil => simp
  | cons c cs ih => simp [List.replicate_succ, ih]

lemma encode_allg (g : List Char) :
    encode g (List.replicate g.length 'g') =
      ⟨∅, (g : Multiset Char), lockList 0 g⟩ := by
  unfold encode
  rw [zip_replicate_g, encodeAux_allg]
  simp

lemma lockList_any_posBad (w : List Char) (g : List Char) :
    ∀ (idx : Nat), idx + g.length ≤ w.length →
      ((lockList idx g).any (posBad w) = false ↔ (w.drop idx).take g.length = g) := by
  induction g with
  | nil =>
    intro idx _
    simp [lockList]
  | cons c cs ih =>
    intro idx h
    have hlen : idx + (cs.length + 1) ≤ w.length := by simpa using h
    have hidx : idx < w.length := by omega
    have hdrop : w.drop idx = w[idx] :: w.drop (idx + 1) := List.drop_eq_getElem_cons hidx
    rw [lockList, hdrop]
    simp only [List.any_cons, Bool.or_eq_false_iff, List.length_cons, List.take_succ_cons,
      List.cons.injEq, posBad, decide_eq_false_iff_not, not_not,
      List.getElem?_eq_getElem hidx, Option.some.injEq]
    rw [ih (idx + 1) (by omega)]

lemma rejectE_allg (g w : List Char) (h : w.length = g.length) :
    rejectE (encode g (List.replicate g.length 'g')) w = some (decide (¬ w = g)) := by
  rw [encode_allg]
  have hkeys : ∀ p ∈ (⟨∅, (g : Multiset Char), lockList 0 g⟩ : EncState).posInfo,
      p.1 < w.length := by
    intro p hp
    have := lockList_mem g 0 p hp
    omega
  rw [rejectE_eq _ _ hkeys]
  have hmiss : hasMissing w ∅ = false := by simp [hasMissing]
  have hlock : (lockList 0 g).any (posBad w) = false ↔ w = g := by
    rw [lockList_any_posBad w g 0 (by omega), List.drop_zero, ← h, List.take_length]
  by_cases hwg : w = g
  · subst hwg
    have h1 : (lockList 0 w).any (posBad w) = false := hlock.mpr rfl
    have h2 : belowMinCounts w (w : Multiset Char) = false := by
      simp [belowMinCounts, Multiset.coe_count]
    rw [hmiss, h1, h2]
    simp
  · have h1 : (lockList 0 g).any (posBad w) = true := by
      cases hb : (lockList 0 g).any (posBad w)
      · exact absurd (hlock.mp hb) hwg
      · rfl
    rw [hmiss, h1]
    simp [hwg]

/-- Claim C10: filtering with the all-Correct verdict (L copies of 'g')
locks every position to the guess letter, so the result is a subset of
the singleton containing the guess: equal to it when the guess is in the
candidate set, empty otherwise. -/
theorem filter_all_correct (words : Finset (List Char)) (g : List Char) (L : Nat)
    (hg : g.length = L) (hw : ∀ u ∈ words, u.length = L) :
    filterWords words g (List.replicate L 'g') ⊆ {g} ∧
    (g ∈ words → filterWords words g (List.replicate L 'g') = {g}) ∧
    (g ∉ words → filterWords words g (List.replicate L 'g') = ∅) := by
  subst hg
  have hmem : ∀ w, w ∈ filterWords words g (List.replicate g.length 'g') ↔
      w ∈ words ∧ w = g := by
    intro w
    rw [mem_filterWords]
    constructor
    · rintro ⟨hwmem, hrej⟩
      refine ⟨hwmem, ?_⟩
      by_contra hne
      apply hrej
      rw [rejectE_allg g w (hw w hwmem)]
      simp [hne]
    · rintro ⟨hwmem, rfl⟩
      refine ⟨hwmem, ?_⟩
      rw [rejectE_allg w w rfl]
      simp
  refine ⟨?_, ?_, ?_⟩
  · intro w hwin
    rw [hmem w] at hwin
    simp [hwin.2]
  · intro hgmem
    ext w
    rw [hmem w]
    simp only [Finset.mem_singleton]
    constructor
    · exact fun hcon => hcon.2
    · rintro rfl
      exact ⟨hgmem, rfl⟩
  · intro hgnot
    ext w
    rw [hmem w]
    simp only [Finset.not_mem_empty, iff_false]
    rintro ⟨hwmem, rfl⟩
    exact hgnot hwmem

/-- Claim C10 witness at a concrete input. -/
theorem filter_all_correct_witness :
    filterWords {['a','b'], ['b','a']} ['a','b'] (List.replicate 2 'g') ⊆ {['a','b']} ∧
    (['a','b'] ∈ ({['a','b'], ['b','a']} : Finset (List Char)) →
      filterWords {['a','b'], ['b','a']} ['a','b'] (List.replicate 2 'g') = {['a','b']}) ∧
    (['a','b'] ∉ ({['a','b'], ['b','a']} : Finset (List Char)) →
      filterWords {['a','b'], ['b','a']} ['a','b'] (List.replicate 2 'g') = ∅) :=
  filter_all_correct {['a','b'], ['b','a']} ['a','b'] 2 rfl (by decide)

end Wordle
